import Mathlib

/-!
Verification development for the typed-message repository.

The build-time pipeline (placeholder parser, locale source scanner sort order,
type reconciler, identifier sanitizer, code generator diagnostics) and the
runtime pieces (placeholder substitution, message lookup, locale controller)
are shallowly embedded as executable Lean definitions translated from the
TypeScript sources, and their stated properties are settled as theorems.

Modelling conventions, stated once:
  * JavaScript strings are Lean `String`s; dictionaries / plain objects are
    association lists (`List (String × _)`) in property insertion order where
    the value of a key is the value of its last assignment.
  * `localeCompare` on locale file names is modelled as code-point
    lexicographic comparison (exact for the ASCII file names this plugin
    handles).
  * File reading plus JSON5 parsing of a locale file is modelled by its
    outcome: `none` for a parse/read failure, `some entries` for success.
  * Asynchronous controller steps are serialized by a mutex in the source, so
    completed operations are modelled as pure state transitions; the list of
    locales the user-supplied loader was invoked on is returned explicitly.
-/


namespace TypedMessage

/-! ## Definitions: the shallow embedding of the program -/

/-- Kernel of `dedupFirst`: drop the elements already seen. -/
def dedupFirstGo : List String → List String → List String
  | [], _ => []
  | x :: xs, seen => if x ∈ seen then dedupFirstGo xs seen else x :: dedupFirstGo xs (x :: seen)

/-- First-occurrence deduplication, the iteration order of a JavaScript `Set`
(and of the keys of a JavaScript object with repeated insertions). -/
def dedupFirst (l : List String) : List String :=
  dedupFirstGo l []

/-- Association-list lookup: the value attached to the first pair whose key
matches, mirroring a JavaScript object property read on unique keys. -/
def lookupA {α : Type} (l : List (String × α)) (k : String) : Option α :=
  (l.find? (fun p => p.1 = k)).map (fun p => p.2)

/-- JavaScript `Array.prototype.join(sep)`. -/
def joinSep (sep : String) : List String → String
  | [] => ""
  | [x] => x
  | x :: y :: xs => x ++ sep ++ joinSep sep (y :: xs)

/-- Whitespace characters recognized by `String.prototype.trim` (the ASCII
ones; exotic Unicode space code points do not occur in locale names). -/
def isJsWhitespace (c : Char) : Bool :=
  c = ' ' || c = '\t' || c = '\n' || c = '\r' || c = '\x0b' || c = '\x0c'

/-- JavaScript `s.trim()`: strip leading and trailing whitespace. -/
def strTrim (s : String) : String :=
  ⟨((s.data.dropWhile isJsWhitespace).reverse.dropWhile isJsWhitespace).reverse⟩

/-- Decimal digits of a natural number, most significant first; the fuel
argument bounds the recursion depth and `n + 1` fuel always suffices. -/
def natToCharsAux : Nat → Nat → List Char
  | 0, _ => []
  | fuel + 1, n =>
    if n < 10 then [Nat.digitChar n]
    else natToCharsAux fuel (n / 10) ++ [Nat.digitChar (n % 10)]

/-- JavaScript `String(n)` for a non-negative integer: decimal digits. -/
def natToString (n : Nat) : String :=
  ⟨natToCharsAux (n + 1) n⟩

/-- JavaScript `String(n)` for an integer. -/
def intToString : Int → String
  | Int.ofNat n => natToString n
  | Int.negSucc n => "-" ++ natToString (n + 1)

/-- Numeric value of a most-significant-first decimal digit list. -/
def valOfDigits (l : List Char) : Nat :=
  l.foldl (fun acc c => acc * 10 + (c.toNat - 48)) 0

/-- The `\w` class of JavaScript: `[A-Za-z0-9_]`. -/
def isWordChar (c : Char) : Bool :=
  ('A' ≤ c && c ≤ 'Z') || ('a' ≤ c && c ≤ 'z') || ('0' ≤ c && c ≤ '9') || c = '_'

/-- One token of a scanned template: a literal character or a placeholder
`{name}` / `{name:type}` with its optional explicit type suffix. -/
inductive MsgTok : Type
  | lit (c : Char)
  | ph (name : String) (tyOpt : Option String)
  deriving DecidableEq, Repr

/-- Try to complete a placeholder match directly after an opening `{`:
returns the name, the optional type and the unconsumed remainder. -/
def matchPlaceholderAfterBrace (l : List Char) : Option (String × Option String × List Char) :=
  let nameRun := l.takeWhile isWordChar
  let rest := l.dropWhile isWordChar
  if nameRun.isEmpty then none
  else
    match rest with
    | '}' :: rest1 => some (⟨nameRun⟩, none, rest1)
    | ':' :: rest1 =>
      let tyRun := rest1.takeWhile isWordChar
      let rest2 := rest1.dropWhile isWordChar
      if tyRun.isEmpty then none
      else
        match rest2 with
        | '}' :: rest3 => some (⟨nameRun⟩, some ⟨tyRun⟩, rest3)
        | _ => none
    | _ => none

/-- Left-to-right scan of a template into tokens; `fuel` bounds the number of
steps and every step consumes at least one character, so `length + 1` fuel is
always enough. -/
def scanTemplateAux : Nat → List Char → List MsgTok
  | 0, _ => []
  | _, [] => []
  | fuel + 1, c :: rest =>
    if c = '{' then
      match matchPlaceholderAfterBrace rest with
      | some (name, tyOpt, rest1) => .ph name tyOpt :: scanTemplateAux fuel rest1
      | none => .lit '{' :: scanTemplateAux fuel rest
    else
      .lit c :: scanTemplateAux fuel rest

/-- Tokenization of a full template string. -/
def scanTemplate (template : String) : List MsgTok :=
  scanTemplateAux (template.data.length + 1) template.data

/-- Placeholder metadata produced by the plugin (`PlaceholderInfo` in
`vite-plugin.ts`); `type` there is one of the literals
`string / number / boolean / date` by static typing only — the parser stores any
word run verbatim, so the embedding uses `String`. -/
structure PlaceholderInfo : Type where
  name : String
  tyName : String
  position : Nat
  deriving DecidableEq, Repr

/-- Embeds `parsePlaceholders` of `vite-plugin.ts`: the placeholder tokens in order,
the type defaulting to `"string"`, the position counting matches. -/
def parsePlaceholders (message : String) : List PlaceholderInfo :=
  let phs := (scanTemplate message).filterMap (fun t =>
    match t with
    | .ph name tyOpt => some (name, tyOpt.getD "string")
    | .lit _ => none)
  phs.enum.map (fun p => { name := p.2.1, tyName := p.2.2, position := p.1 })

/-- Runtime parameter values passed to a message (JavaScript `Date` values,
whose rendering is locale dependent, are outside this model). -/
inductive PValue : Type
  | vStr (s : String)
  | vNum (n : Int)
  | vBool (b : Bool)
  deriving DecidableEq, Repr

/-- JavaScript `String(value)` on a parameter value. -/
def pvToString : PValue → String
  | .vStr s => s
  | .vNum n => intToString n
  | .vBool b => if b then "true" else "false"

/-- The exact text matched by a placeholder token, reproduced verbatim when
the parameter object lacks the name. -/
def phLiteral (name : String) (tyOpt : Option String) : List Char :=
  '{' :: name.data ++ (match tyOpt with | some ty => ':' :: ty.data | none => []) ++ ['}']

/-- Rendering of one token under a parameter object. -/
def renderTok (params : List (String × PValue)) : MsgTok → List Char
  | .lit c => [c]
  | .ph name tyOpt =>
    match lookupA params name with
    | some v => (pvToString v).data
    | none => phLiteral name tyOpt

/-- Embeds `replacePlaceholders(template, params)`: every `{name}` / `{name:type}`
token whose name is an own property of `params` is replaced by the stringified
value, every other token and character is kept as-is. -/
def replacePlaceholders (template : String) (params : List (String × PValue)) : String :=
  ⟨((scanTemplate template).map (renderTok params)).flatten⟩

/-- The reserved words of `util.ts` that a generated identifier must avoid. -/
def RESERVED_WORDS : List String :=
  ["break", "case", "catch", "class", "const", "continue", "debugger",
   "default", "delete", "do", "else", "enum", "export", "extends", "false",
   "finally", "for", "from", "function", "get", "if", "implements", "import",
   "in", "infer", "instanceof", "interface", "is", "keyof", "let", "module",
   "namespace", "never", "new", "null", "number", "object", "of", "package",
   "private", "protected", "public", "readonly", "require", "return", "set",
   "static", "string", "super", "switch", "symbol", "this", "throw", "true",
   "try", "type", "typeof", "undefined", "var", "void", "while", "with",
   "yield"]

/-- A character kept verbatim by `input.replace(/[^A-Za-z0-9_$]/g, '_')`. -/
def isIdentChar (c : Char) : Bool :=
  ('A' ≤ c && c ≤ 'Z') || ('a' ≤ c && c ≤ 'z') || ('0' ≤ c && c ≤ '9') || c = '_' || c = '$'

/-- A character allowed to start an identifier (`/^[^A-Za-z_$]/` fails). -/
def isIdentStartChar (c : Char) : Bool :=
  ('A' ≤ c && c ≤ 'Z') || ('a' ≤ c && c ≤ 'z') || c = '_' || c = '$'

/-- Embeds `sanitizeIdentifier` of `util.ts`. -/
def sanitizeIdentifier (input : String) : String :=
  let replaced : String := ⟨input.data.map (fun c => if isIdentChar c then c else '_')⟩
  let nonEmpty := if replaced.data.length = 0 then "_" else replaced
  let started :=
    match nonEmpty.data with
    | c :: _ => if isIdentStartChar c then nonEmpty else "_" ++ nonEmpty
    | [] => nonEmpty
  if started ∈ RESERVED_WORDS then "_" ++ started else started

/-- The candidate tried at retry count `i` by `ensureUniqueIdentifier`:
the base itself first, then `base_1`, `base_2`, …. -/
def candidateName (base : String) : Nat → String
  | 0 => base
  | i + 1 => base ++ "_" ++ natToString (i + 1)

/-- The `while (usedIdentifiers.has(candidate))` loop of
`ensureUniqueIdentifier`; `fuel` bounds the number of retries, and
`used.length` retries always reach a free candidate (`ensureUniqueAux_not_mem`). -/
def ensureUniqueAux (base : String) (used : List String) : Nat → Nat → String
  | idx, fuel =>
    if candidateName base idx ∈ used then
      match fuel with
      | 0 => candidateName base idx
      | fuel + 1 => ensureUniqueAux base used (idx + 1) fuel
    else
      candidateName base idx

/-- Embeds `ensureUniqueIdentifier` of `util.ts`: the chosen identifier and the
updated used set (the JavaScript `Set` is modelled as a list, new element in
front). -/
def ensureUniqueIdentifier (base : String) (used : List String) : String × List String :=
  let c := ensureUniqueAux base used 0 used.length
  (c, c :: used)

/-- One generation pass: fold the sanitize / ensure-unique pair over a key
sequence threading the used set, as `generateTypeScriptCode` does. -/
def assignIdentifiers (keys : List String) (used : List String) : List String :=
  match keys with
  | [] => []
  | k :: ks =>
    let r := ensureUniqueIdentifier (sanitizeIdentifier k) used
    r.1 :: assignIdentifiers ks r.2

/-- Node `path.basename(file, path.extname(file))`: strip the extension, which
starts at the last dot unless that dot is the first character. -/
def baseNameOf (file : String) : String :=
  let cs := file.data
  let dotIdxs := (cs.enum.filter (fun p => p.2 = '.')).map (fun p => p.1)
  match dotIdxs.getLast? with
  | some i => if i = 0 then file else ⟨cs.take i⟩
  | none => file

/-- Embeds `fallbackPriorityOrder.indexOf(basename(file))`, as an `Option Nat`
(`none` models `-1`). -/
def prioIndex (prio : List String) (file : String) : Option Nat :=
  prio.findIdx? (fun p => p = baseNameOf file)

/-- The model of `a.localeCompare(b)`: code-point lexicographic sign. -/
def strCompare (a b : String) : Int :=
  if a < b then -1 else if a = b then 0 else 1

/-- The sort comparator of `getLocaleFiles`: both basenames in the priority
list compare by index; a listed basename sorts before an unlisted one; two
unlisted files compare alphabetically. -/
def localeCmp (prio : List String) (a b : String) : Int :=
  match prioIndex prio a, prioIndex prio b with
  | some i, some j => (i : Int) - (j : Int)
  | some _, none => -1
  | none, some _ => 1
  | none, none => strCompare a b

/-- Non-positive comparator outcome: `a` may be placed before `b`. -/
def localeLe (prio : List String) (a b : String) : Prop :=
  localeCmp prio a b ≤ 0

instance (prio : List String) : DecidableRel (localeLe prio) :=
  fun a b => decidable_of_iff (localeCmp prio a b ≤ 0) Iff.rfl

/-- The ascending relation used to insert is exactly "comparator ≤ 0", so the
stable sort of the source is `List.insertionSort` with `localeLe`. -/
def getLocaleFilesOrder (files : List String) (prio : List String) : List String :=
  List.insertionSort (localeLe prio) files

/-- A JSON5 value stored under a message key: a string template, or any
non-string value (its shape is irrelevant — `typeof value === 'string'` is the
only test applied). -/
inductive LValue : Type
  | str (s : String)
  | nonStr
  deriving DecidableEq, Repr

/-- Key order of a JavaScript object built from these entries. -/
def objKeys (entries : List (String × LValue)) : List String :=
  dedupFirst (entries.map (fun p => p.1))

/-- Value of a key in a JavaScript object built from these entries: the last
assignment wins. -/
def objGet (entries : List (String × LValue)) (k : String) : Option LValue :=
  ((entries.reverse).find? (fun p => p.1 = k)).map (fun p => p.2)

/-- Embeds `ParsedMessage` of `vite-plugin.ts`. -/
structure ParsedMessage : Type where
  key : String
  template : String
  placeholders : List PlaceholderInfo
  fallback : String
  deriving DecidableEq, Repr

/-- Embeds `parseMessage` of `vite-plugin.ts`. -/
def parseMessage (key messageData fallback : String) : ParsedMessage :=
  { key := key
    template := messageData
    placeholders := parsePlaceholders messageData
    fallback := fallback }

/-- Embeds `localeMessages[file]`: the string-valued entries of one parsed locale
file, parsed into messages (non-string values are skipped by the
`typeof value === 'string'` guard). -/
def fileMessages (entries : List (String × LValue)) : List (String × ParsedMessage) :=
  (objKeys entries).filterMap (fun k =>
    match objGet entries k with
    | some (.str s) => some (k, parseMessage k s s)
    | _ => none)

/-- The message stored for `key` in one file's parse outcome. -/
def msgIn (outcome : Option (List (String × LValue))) (key : String) : Option ParsedMessage :=
  outcome.bind (fun e => lookupA (fileMessages e) key)

/-- Embeds `invalidFiles`: the files whose read/parse threw, in processing order. -/
def invalidFilesFor (files : List (String × Option (List (String × LValue)))) : List String :=
  files.filterMap (fun fp => match fp.2 with | none => some fp.1 | some _ => none)

/-- Embeds `allMessageKeys`: every key of every successfully parsed file, first
occurrence order. -/
def allMessageKeys (files : List (String × Option (List (String × LValue)))) : List String :=
  dedupFirst (files.flatMap (fun fp =>
    match fp.2 with
    | some e => (fileMessages e).map (fun p => p.1)
    | none => []))

/-- The message selected for a key: iterate the file list from the last entry
down and keep the first file that defines the key (last file wins). -/
def selectedMessageFor (files : List (String × Option (List (String × LValue))))
    (key : String) : Option ParsedMessage :=
  (files.reverse).findSome? (fun fp => msgIn fp.2 key)

/-- Embeds `placeholderTypeMap[param]` for one key: each file's asserted type for the
parameter, in file order; within one message a later placeholder occurrence of
the same name overwrites the earlier one. -/
def typesByFileFor (files : List (String × Option (List (String × LValue))))
    (key param : String) : List (String × String) :=
  files.filterMap (fun fp =>
    (msgIn fp.2 key).bind (fun m =>
      ((m.placeholders.reverse).find? (fun ph => ph.name = param)).map
        (fun ph => (fp.1, ph.tyName))))

/-- The parameter names observed under a key across all files, first
occurrence order. -/
def paramNamesFor (files : List (String × Option (List (String × LValue))))
    (key : String) : List String :=
  dedupFirst (files.flatMap (fun fp =>
    match msgIn fp.2 key with
    | some m => m.placeholders.map (fun ph => ph.name)
    | none => []))

/-- Embeds `PlaceholderTypeConflict` of `vite-plugin.ts`: a parameter name together
with every file's asserted type. -/
structure PlaceholderTypeConflict : Type where
  parameterName : String
  conflicts : List (String × String)
  deriving DecidableEq, Repr

/-- The conflicts recorded for one key: a parameter is conflicting when more
than one distinct type is observed for it. -/
def conflictsFor (files : List (String × Option (List (String × LValue))))
    (key : String) : List PlaceholderTypeConflict :=
  (paramNamesFor files key).filterMap (fun pn =>
    let tbf := typesByFileFor files key pn
    if 1 < (dedupFirst (tbf.map (fun p => p.2))).length then
      some { parameterName := pn, conflicts := tbf }
    else none)

/-- Embeds `MessageWarning` of `vite-plugin.ts`. -/
structure MessageWarning : Type where
  key : String
  conflicts : List PlaceholderTypeConflict
  deriving DecidableEq, Repr

/-- Final type resolution for one placeholder of the selected message: the
first explicit (non-`string`) type asserted by any file, in file order, else
the original. -/
def resolvePlaceholder (files : List (String × Option (List (String × LValue))))
    (key : String) (ph : PlaceholderInfo) : PlaceholderInfo :=
  match ((typesByFileFor files key ph.name).map (fun p => p.2)).filter
      (fun t => t ≠ "string") with
  | [] => ph
  | t :: _ => { ph with tyName := t }

/-- Embeds `aggregatedMessages`: for every key with a selected message, the selected
message with reconciled placeholder types; keys that appear only in invalid
files are dropped. -/
def aggregatedFor (files : List (String × Option (List (String × LValue)))) :
    List (String × ParsedMessage) :=
  (allMessageKeys files).filterMap (fun k =>
    (selectedMessageFor files k).map (fun m =>
      (k, { m with placeholders := m.placeholders.map (resolvePlaceholder files k) })))

/-- Embeds `warnings`: the keys (with a selected message) that have conflicts. -/
def warningsFor (files : List (String × Option (List (String × LValue)))) :
    List MessageWarning :=
  (allMessageKeys files).filterMap (fun k =>
    match selectedMessageFor files k with
    | none => none
    | some _ =>
      match conflictsFor files k with
      | [] => none
      | c :: cs => some { key := k, conflicts := c :: cs })

/-- The result record of `checkPlaceholderTypeConsistency`. -/
structure CheckResult : Type where
  aggregatedMessages : List (String × ParsedMessage)
  warnings : List MessageWarning
  invalidFiles : List String
  deriving DecidableEq, Repr

/-- Embeds `checkPlaceholderTypeConsistency`, assembled from the pieces above. -/
def checkPlaceholderTypeConsistency
    (files : List (String × Option (List (String × LValue)))) : CheckResult :=
  { aggregatedMessages := aggregatedFor files
    warnings := warningsFor files
    invalidFiles := invalidFilesFor files }

/-- The leading comment block of the generated module listing the locale files
that failed to parse (empty when none did). -/
def invalidFilesComment (invalidFiles : List String) : String :=
  if invalidFiles.isEmpty then ""
  else
    "/**\n* Warning: Failed to load the following locale files\n* " ++
      joinSep "\n" (invalidFiles.map (fun file => " * - " ++ file)) ++
      "\n* These files are not included in the generated code.\n*/\n"

/-- Substring containment on strings, through their character lists. -/
def strInfix (s t : String) : Prop :=
  s.data <:+: t.data

/-- A generated message item: original key plus fallback text (`MessageItem`
and `SimpleMessageItem` share this runtime shape). -/
structure MessageItem : Type where
  key : String
  fallback : String
  deriving DecidableEq, Repr

/-- A JavaScript truthiness-filtering read: `messages[k]` is usable only when
present and non-empty (`!localizedMessage` treats `""` like a missing key). -/
def truthyLookup (messages : List (String × String)) (k : String) : Option String :=
  match lookupA messages k with
  | some s => if s = "" then none else some s
  | none => none

/-- Truthiness filter on an optional string (for `if (!resolvedDictionaryKey)`
style guards). -/
def truthyOpt : Option String → Option String
  | some s => if s = "" then none else some s
  | none => none

/-- The `getMessage` closure of `useTypedMessage`: dictionary value if truthy,
else the item's fallback; placeholder substitution when a parameter object is
passed. -/
def getMessage (messages : List (String × String)) (item : MessageItem)
    (params : Option (List (String × PValue))) : String :=
  let localized :=
    match truthyLookup messages item.key with
    | some s => s
    | none => item.fallback
  match params with
  | some ps => replacePlaceholders localized ps
  | none => localized

/-- The loop body of `getSanitizedDictionary` in `TypedMessageProvider`:
walk the dictionary keys, sanitize each, make it unique against the running
used set, and record sanitized-key → original-key (first write wins). -/
def sanitizedDictGo : List String → List String → List (String × String) →
    List (String × String)
  | [], _, acc => acc
  | k :: ks, used, acc =>
    let r := ensureUniqueIdentifier (sanitizeIdentifier k) used
    let acc1 := if lookupA acc r.1 = none then acc ++ [(r.1, k)] else acc
    sanitizedDictGo ks r.2 acc1

/-- Embeds `getSanitizedDictionary`: the sanitized-identifier → dictionary-key map in
insertion order (`Object.keys` of the dictionary object gives each key once,
first occurrence order). -/
def getSanitizedDictionary (dict : List (String × String)) : List (String × String) :=
  sanitizedDictGo (dedupFirst (dict.map (fun p => p.1))) [] []

/-- The sanitized-key resolution of `tryGetMessageDynamic`: exact sanitized
match first (a falsy match is treated as absent), then the first map entry
whose sanitized key starts with `base ++ "_"`. -/
def dynamicResolvedKey (messages : List (String × String)) (key : String) : Option String :=
  let smap := getSanitizedDictionary messages
  let base := sanitizeIdentifier key
  match truthyOpt (lookupA smap base) with
  | some dk => some dk
  | none =>
    ((smap.find? (fun p => String.isPrefixOf (base ++ "_") p.1)).map (fun p => p.2))

/-- The fallthrough branch of `tryGetMessageDynamic` taken when the direct
dictionary read is falsy: look up via the resolved dictionary key (when that
key itself is truthy), keeping only a truthy result. -/
def dynamicFallthrough (messages : List (String × String)) (key : String) : Option String :=
  (truthyOpt (dynamicResolvedKey messages key)).bind (truthyLookup messages)

/-- Embeds `tryGetMessageDynamic`: direct truthy read, else sanitized-key
resolution; `undefined` when both fail; placeholder substitution applied to a
found message when a parameter object is passed. -/
def tryGetMessageDynamic (messages : List (String × String)) (key : String)
    (params : Option (List (String × PValue))) : Option String :=
  let localized :=
    match truthyLookup messages key with
    | some s => some s
    | none => dynamicFallthrough messages key
  localized.map (fun s =>
    match params with
    | some ps => replacePlaceholders s ps
    | none => s)

inductive LoadStatus : Type
  | idle
  | loading
  | ready
  | error
  deriving DecidableEq, Repr

/-- The observable controller state plus its refs (`cacheRef`, mount flag). -/
structure ControllerState : Type where
  locale : String
  status : LoadStatus
  dictionary : List (String × String)
  error : Option String
  cache : List (String × List (String × String))
  mounted : Bool
  deriving DecidableEq, Repr

/-- A user-supplied `loadLocale`: resolves with a dictionary or rejects with
an error, deterministically per locale (one completed invocation is modelled). -/
def Loader : Type := String → Except String (List (String × String))

/-- Embeds `applyLoadedLocale`: abandon if unmounted, else atomically install the
dictionary, locale, `ready` status and clear the error. -/
def applyLoadedLocale (s : ControllerState) (nextLocale : String)
    (nextDictionary : List (String × String)) : ControllerState :=
  if s.mounted then
    { s with
      locale := nextLocale
      dictionary := nextDictionary
      status := .ready
      error := none }
  else s

/-- Embeds `enqueueLoad(requestedLocale, apply)` run to completion under the mutex. -/
def enqueueLoad (loader : Loader) (s : ControllerState) (requestedLocale : String)
    (apply : Bool) : ControllerState × Except String Unit × List String :=
  let normalized := strTrim requestedLocale
  if normalized = "" then (s, .ok (), [])
  else
    match lookupA s.cache normalized with
    | some cached =>
      (if apply then applyLoadedLocale s normalized cached else s, .ok (), [])
    | none =>
      let s1 := if apply && s.mounted then { s with status := .loading, error := none } else s
      match loader normalized with
      | .ok loaded =>
        let s2 := { s1 with cache := (normalized, loaded) :: s1.cache }
        ((if apply then applyLoadedLocale s2 normalized loaded else s2), .ok (), [normalized])
      | .error e =>
        ((if apply && s.mounted then { s1 with status := .error, error := some e } else s1),
          .error e, [normalized])

/-- Embeds `setLocale`: no-op on blank input; reapply from cache when the requested
locale is the active one and cached; otherwise enqueue an applying load. -/
def setLocale (loader : Loader) (s : ControllerState) (requestedLocale : String) :
    ControllerState × Except String Unit × List String :=
  let normalized := strTrim requestedLocale
  if normalized = "" then (s, .ok (), [])
  else if normalized = s.locale then
    match lookupA s.cache normalized with
    | some cached => (applyLoadedLocale s normalized cached, .ok (), [])
    | none => enqueueLoad loader s normalized true
  else enqueueLoad loader s normalized true

/-- Embeds `preload`: trim, drop blanks, deduplicate, then load each name without
applying; the mutex serializes the parallel `enqueueLoad`s in request order. -/
def preload (loader : Loader) (s : ControllerState) (names : List String) :
    ControllerState × List String :=
  let unique := dedupFirst ((names.map (fun n => strTrim n)).filter (fun n => n ≠ ""))
  unique.foldl
    (fun acc n =>
      let r := enqueueLoad loader acc.1 n false
      (r.1, acc.2 ++ r.2.2))
    (s, [])

/-- The spec §8 last-file-wins example: `fallback.json` defines `A: "x"`,
`en.json` defines `A: "y"`, priority `['en', 'fallback']`; the reconciler is
fed the files in the scanner's processing order. -/
def lastFileWinsExample : List (String × Option (List (String × LValue))) :=
  (getLocaleFilesOrder ["fallback.json", "en.json"] ["en", "fallback"]).map (fun f =>
    (f, if f = "fallback.json" then some [("A", LValue.str "x")]
        else some [("A", LValue.str "y")]))

/-- The spec §8 conflict-detection example: `fallback.json` holds
`{userId}` with no type suffix, `en.json` holds `{userId:number}`, priority
`['en', 'fallback']`. -/
def conflictExample : List (String × Option (List (String × LValue))) :=
  (getLocaleFilesOrder ["fallback.json", "en.json"] ["en", "fallback"]).map (fun f =>
    (f, if f = "fallback.json" then some [("K", LValue.str "Hi {userId}")]
        else some [("K", LValue.str "Hi {userId:number}")]))

/-- Spec step 1: replace every character outside `[A-Za-z0-9_$]` with `_`. -/
def stepReplace (s : String) : String :=
  ⟨s.data.map (fun c => if isIdentChar c then c else '_')⟩

/-- Spec step 2: substitute `_` for an empty result. -/
def stepNonEmpty (s : String) : String :=
  if s.data.length = 0 then "_" else s

/-- Spec step 3: put `_` in front when the result does not start with a
letter, `_` or `$`. -/
def stepStart (s : String) : String :=
  match s.data with
  | c :: _ => if isIdentStartChar c then s else "_" ++ s
  | [] => s

/-- Spec step 4: put `_` in front when the result equals a reserved word. -/
def stepReserved (s : String) : String :=
  if s ∈ RESERVED_WORDS then "_" ++ s else s

/-- The sanitizer algorithm as the spec words it: the four steps in order.
Modelled from the spec sentence describing `sanitizeIdentifier`. -/
def sanitizeSpec (input : String) : String :=
  stepReserved (stepStart (stepNonEmpty (stepReplace input)))

def c4State : ControllerState :=
  { locale := "en"
    status := .ready
    dictionary := [("A", "hello")]
    error := none
    cache := [("en", [("A", "hello")])]
    mounted := true }

def c4Loader : Loader := fun _ => .error "boom"

def c5State : ControllerState :=
  { locale := "en"
    status := .ready
    dictionary := [("A", "hello")]
    error := none
    cache := [("en", [("A", "hello")])]
    mounted := true }

def c5Loader : Loader := fun _ => .ok [("A", "konnichiwa")]

def c7Files : List (String × Option (List (String × LValue))) :=
  [("bad.json", none), ("en.json", some [("K", LValue.str "Hello")])]

def c10Files : List (String × Option (List (String × LValue))) :=
  [("en.json", some [("N", LValue.nonStr), ("K", LValue.str "Hello")])]

/-! ## Theorems -/

theorem valOfDigits_append (l : List Char) (c : Char) :
    valOfDigits (l ++ [c]) = valOfDigits l * 10 + (c.toNat - 48) := by
  simp [valOfDigits, List.foldl_append]

theorem digitChar_val (n : Nat) (h : n < 10) : (Nat.digitChar n).toNat - 48 = n := by
  interval_cases n <;> decide

theorem valOfDigits_natToCharsAux (fuel n : Nat) (h : n < fuel) :
    valOfDigits (natToCharsAux fuel n) = n := by
  induction fuel generalizing n with
  | zero => omega
  | succ fuel ih =>
    by_cases hn : n < 10
    · simp only [natToCharsAux, if_pos hn, valOfDigits, List.foldl]
      simpa using digitChar_val n hn
    · have hdiv : n / 10 < fuel := by
        have h1 : n / 10 < n := Nat.div_lt_self (by omega) (by omega)
        omega
      simp only [natToCharsAux, if_neg hn]
      rw [valOfDigits_append, ih (n / 10) hdiv,
        digitChar_val (n % 10) (Nat.mod_lt n (by omega))]
      omega

theorem natToString_injective : Function.Injective natToString := by
  intro m n h
  have hdata : natToCharsAux (m + 1) m = natToCharsAux (n + 1) n :=
    congrArg String.data h
  have := valOfDigits_natToCharsAux (m + 1) m (by omega)
  rw [hdata, valOfDigits_natToCharsAux (n + 1) n (by omega)] at this
  omega

theorem candidateName_injective (base : String) : Function.Injective (candidateName base) := by
  have hlen : ∀ s t : String, (s ++ t).data = s.data ++ t.data := fun s t => rfl
  intro i j h
  match i, j with
  | 0, 0 => rfl
  | 0, j + 1 =>
    exfalso
    have := congrArg (fun s => s.data.length) h
    simp [candidateName, hlen] at this
  | i + 1, 0 =>
    exfalso
    have := congrArg (fun s => s.data.length) h
    simp [candidateName, hlen] at this
  | i + 1, j + 1 =>
    have hdata := congrArg String.data h
    simp only [candidateName, hlen] at hdata
    rw [List.append_assoc, List.append_assoc] at hdata
    have : (natToString (i + 1)).data = (natToString (j + 1)).data :=
      List.append_cancel_left (List.append_cancel_left hdata)
    have : natToString (i + 1) = natToString (j + 1) := by
      cases hni : natToString (i + 1)
      cases hnj : natToString (j + 1)
      simp_all
    have := natToString_injective this
    omega

/-- Pigeonhole: among `used.length + 1` distinct candidates one is free. -/
theorem exists_free_candidate (base : String) (used : List String) (idx : Nat) :
    ∃ k ≤ used.length, candidateName base (idx + k) ∉ used := by
  by_contra hall
  push_neg at hall
  have hsub : (Finset.range (used.length + 1)).image (fun k => candidateName base (idx + k))
      ⊆ used.toFinset := by
    intro x hx
    rcases Finset.mem_image.mp hx with ⟨k, hk, rfl⟩
    exact List.mem_toFinset.mpr (hall k (by simpa using Nat.lt_succ_iff.mp (Finset.mem_range.mp hk)))
  have hcard : used.length + 1 ≤ used.toFinset.card := by
    calc used.length + 1
        = ((Finset.range (used.length + 1)).image (fun k => candidateName base (idx + k))).card := by
          rw [Finset.card_image_of_injective _
            (fun a b hab => by have := candidateName_injective base hab; omega)]
          simp
      _ ≤ used.toFinset.card := Finset.card_le_card hsub
  have := used.toFinset_card_le
  omega

theorem ensureUniqueAux_not_mem (base : String) (used : List String) (idx fuel : Nat)
    (h : ∃ k ≤ fuel, candidateName base (idx + k) ∉ used) :
    ensureUniqueAux base used idx fuel ∉ used := by
  induction fuel generalizing idx with
  | zero =>
    rcases h with ⟨k, hk, hfree⟩
    have hk0 : k = 0 := Nat.le_zero.mp hk
    subst hk0
    simp only [Nat.add_zero] at hfree
    simpa [ensureUniqueAux, if_neg hfree] using hfree
  | succ fuel ih =>
    by_cases hmem : candidateName base idx ∈ used
    · rw [ensureUniqueAux, if_pos hmem]
      apply ih
      rcases h with ⟨k, hk, hfree⟩
      match k, hk with
      | 0, _ => exact absurd hfree (by simpa using hmem)
      | k + 1, hk =>
        exact ⟨k, by omega, by simpa [Nat.add_assoc, Nat.add_comm 1 k] using hfree⟩
    · rw [ensureUniqueAux, if_neg hmem]
      exact hmem

/-- The identifier chosen by `ensureUniqueIdentifier` is never already used. -/
theorem ensureUniqueIdentifier_not_mem (base : String) (used : List String) :
    (ensureUniqueIdentifier base used).1 ∉ used :=
  ensureUniqueAux_not_mem base used 0 used.length
    (by
      rcases exists_free_candidate base used 0 with ⟨k, hk, hfree⟩
      exact ⟨k, hk, hfree⟩)

/-- The chosen identifier is one of the candidates `base`, `base_1`, …. -/
theorem ensureUniqueAux_shape (base : String) (used : List String) (idx fuel : Nat) :
    ∃ k, ensureUniqueAux base used idx fuel = candidateName base (idx + k) := by
  induction fuel generalizing idx with
  | zero =>
    by_cases hmem : candidateName base idx ∈ used <;>
      exact ⟨0, by simp [ensureUniqueAux, hmem]⟩
  | succ fuel ih =>
    by_cases hmem : candidateName base idx ∈ used
    · rcases ih (idx + 1) with ⟨k, hk⟩
      exact ⟨k + 1, by rw [ensureUniqueAux, if_pos hmem, hk]; ring_nf⟩
    · exact ⟨0, by simp [ensureUniqueAux, hmem]⟩

/-- The loop returns the first free candidate: a candidate index `k` whose
name is unused while all earlier candidates from `idx` on are used. -/
theorem ensureUniqueAux_spec (base : String) (used : List String) (idx fuel : Nat)
    (h : ∃ k, k ≤ fuel ∧ candidateName base (idx + k) ∉ used) :
    ∃ k, ensureUniqueAux base used idx fuel = candidateName base (idx + k) ∧
      candidateName base (idx + k) ∉ used ∧
      ∀ j, idx ≤ j → j < idx + k → candidateName base j ∈ used := by
  induction fuel generalizing idx with
  | zero =>
    rcases h with ⟨k, hk, hfree⟩
    have hk0 : k = 0 := Nat.le_zero.mp hk
    subst hk0
    simp only [Nat.add_zero] at hfree
    refine ⟨0, ?_, by simpa using hfree, by omega⟩
    simp [ensureUniqueAux, if_neg hfree]
  | succ fuel ih =>
    by_cases hmem : candidateName base idx ∈ used
    · rcases h with ⟨k, hk, hfree⟩
      match k, hk with
      | 0, _ =>
        exact absurd hfree (by simpa using hmem)
      | k + 1, hk =>
        have hih := ih (idx + 1) ⟨k, by omega,
          by simpa [Nat.add_assoc, Nat.add_comm 1 k] using hfree⟩
        rcases hih with ⟨k2, hk2, hfree2, hall2⟩
        refine ⟨k2 + 1, ?_, ?_, ?_⟩
        · rw [ensureUniqueAux, if_pos hmem, hk2]
          congr 1
          omega
        · have : idx + 1 + k2 = idx + (k2 + 1) := by omega
          rwa [this] at hfree2
        · intro j hj1 hj2
          by_cases hje : j = idx
          · subst hje; exact hmem
          · exact hall2 j (by omega) (by omega)
    · refine ⟨0, ?_, by simpa using hmem, by omega⟩
      simp [ensureUniqueAux, if_neg hmem]

/-- Every identifier assigned later avoids everything in the running used set,
hence a generation pass yields pairwise-distinct identifiers. -/
theorem assignIdentifiers_nodup (keys : List String) (used : List String) :
    (assignIdentifiers keys used).Nodup ∧
      ∀ x ∈ assignIdentifiers keys used, x ∉ used := by
  induction keys generalizing used with
  | nil => simp [assignIdentifiers]
  | cons k ks ih =>
    have hnot := ensureUniqueIdentifier_not_mem (sanitizeIdentifier k) used
    rcases ih ((ensureUniqueIdentifier (sanitizeIdentifier k) used).2) with ⟨hnd, havoid⟩
    refine ⟨?_, ?_⟩
    · refine List.nodup_cons.mpr ⟨?_, hnd⟩
      intro hmem
      have := havoid _ hmem
      simp [ensureUniqueIdentifier] at this
    · intro x hx
      rcases List.mem_cons.mp hx with rfl | hx'
      · exact hnot
      · intro hxu
        exact havoid x hx' (by simp [ensureUniqueIdentifier, hxu])

theorem localeLe_total (prio : List String) (a b : String) :
    localeLe prio a b ∨ localeLe prio b a := by
  unfold localeLe localeCmp strCompare
  rcases ha : prioIndex prio a with _ | i <;> rcases hb : prioIndex prio b with _ | j <;>
    simp only []
  · rcases lt_trichotomy a b with h | h | h
    · left; simp [h]
    · left; simp [h]
    · right
      have hne : ¬ b = a := fun hh => absurd hh.symm (ne_of_gt h)
      simp [h, not_lt_of_gt h, hne]
  · right; omega
  · left; omega
  · omega

theorem localeLe_trans (prio : List String) (a b c : String)
    (hab : localeLe prio a b) (hbc : localeLe prio b c) : localeLe prio a c := by
  unfold localeLe localeCmp strCompare at *
  rcases ha : prioIndex prio a with _ | i <;> rcases hb : prioIndex prio b with _ | j <;>
    rcases hc : prioIndex prio c with _ | k <;>
    simp only [ha, hb, hc] at hab hbc ⊢ <;> try omega
  · -- all three unlisted: string order is transitive
    by_cases h1 : a < b
    · by_cases h2 : b < c
      · simp [lt_trans h1 h2, le_of_lt (lt_trans h1 h2)]
      · by_cases h2e : b = c
        · subst h2e; simp [h1]
        · simp [h2, h2e] at hbc
    · by_cases h1e : a = b
      · subst h1e; exact hbc
      · simp [h1, h1e] at hab

theorem getLocaleFilesOrder_perm (files prio : List String) :
    (getLocaleFilesOrder files prio).Perm files :=
  List.perm_insertionSort (localeLe prio) files

theorem getLocaleFilesOrder_sorted (files prio : List String) :
    (getLocaleFilesOrder files prio).Pairwise (localeLe prio) := by
  have : IsTotal String (localeLe prio) := ⟨localeLe_total prio⟩
  have : IsTrans String (localeLe prio) := ⟨localeLe_trans prio⟩
  exact List.sorted_insertionSort (localeLe prio) files

theorem mem_dedupFirstGo (x : String) (l seen : List String) :
    x ∈ dedupFirstGo l seen ↔ x ∈ l ∧ x ∉ seen := by
  induction l generalizing seen with
  | nil => simp [dedupFirstGo]
  | cons y ys ih =>
    by_cases hy : y ∈ seen
    · rw [dedupFirstGo, if_pos hy, ih]
      constructor
      · rintro ⟨hx, hns⟩
        exact ⟨List.mem_cons_of_mem y hx, hns⟩
      · rintro ⟨hx, hns⟩
        rcases List.mem_cons.mp hx with rfl | hx'
        · exact absurd hy hns
        · exact ⟨hx', hns⟩
    · rw [dedupFirstGo, if_neg hy]
      constructor
      · intro hx
        rcases List.mem_cons.mp hx with rfl | hx'
        · exact ⟨List.mem_cons_self x ys, hy⟩
        · rcases (ih (y :: seen)).mp hx' with ⟨hmem, hns⟩
          exact ⟨List.mem_cons_of_mem y hmem,
            fun hs => hns (List.mem_cons_of_mem y hs)⟩
      · rintro ⟨hx, hns⟩
        rcases List.mem_cons.mp hx with rfl | hx'
        · exact List.mem_cons_self x _
        · by_cases hxy : x = y
          · subst hxy; exact List.mem_cons_self x _
          · exact List.mem_cons_of_mem y ((ih (y :: seen)).mpr
              ⟨hx', fun hs => by
                rcases List.mem_cons.mp hs with h | h
                · exact hxy h
                · exact hns h⟩)

theorem mem_dedupFirst (x : String) (l : List String) :
    x ∈ dedupFirst l ↔ x ∈ l := by
  rw [dedupFirst, mem_dedupFirstGo]
  simp

theorem lookupA_eq_some_mem {α : Type} (l : List (String × α)) (k : String) (v : α)
    (h : lookupA l k = some v) : (k, v) ∈ l := by
  rcases Option.map_eq_some'.mp h with ⟨p, hfind, hv⟩
  have hmem := List.mem_of_find?_eq_some hfind
  have hkey := List.find?_some hfind
  have : p.1 = k := by simpa using hkey
  rcases p with ⟨k', v'⟩
  subst hv
  simp only at this
  subst this
  exact hmem

theorem lookupA_isSome_of_mem_keys {α : Type} (l : List (String × α)) (k : String)
    (h : k ∈ l.map (fun p => p.1)) : ∃ v, lookupA l k = some v := by
  induction l with
  | nil => simp at h
  | cons p ps ih =>
    by_cases hk : p.1 = k
    · exact ⟨p.2, by simp [lookupA, List.find?, hk]⟩
    · have : k ∈ ps.map (fun q => q.1) := by
        rcases List.mem_map.mp h with ⟨q, hq, hqk⟩
        rcases List.mem_cons.mp hq with rfl | hq'
        · exact absurd hqk hk
        · exact List.mem_map.mpr ⟨q, hq', hqk⟩
      rcases ih this with ⟨v, hv⟩
      refine ⟨v, ?_⟩
      simpa [lookupA, List.find?, hk] using hv

theorem mem_keys_of_lookupA_eq_some {α : Type} (l : List (String × α)) (k : String) (v : α)
    (h : lookupA l k = some v) : k ∈ l.map (fun p => p.1) :=
  List.mem_map.mpr ⟨(k, v), lookupA_eq_some_mem l k v h, rfl⟩

theorem findSome?_isSome_of_mem {α β : Type} (l : List α) (f : α → Option β) (a : α)
    (ha : a ∈ l) (b : β) (hb : f a = some b) : ∃ c, l.findSome? f = some c := by
  induction l with
  | nil => simp at ha
  | cons x xs ih =>
    rcases hx : f x with _ | c
    · rcases List.mem_cons.mp ha with rfl | ha'
      · rw [hx] at hb; cases hb
      · rcases ih ha' with ⟨c, hc⟩
        exact ⟨c, by simpa [List.findSome?, hx] using hc⟩
    · exact ⟨c, by simp [List.findSome?, hx]⟩

theorem strData_append (s t : String) : (s ++ t).data = s.data ++ t.data := rfl

theorem isInfixAppendLeft {α : Type} (l l₁ l₂ : List α) (h : l <:+: l₂) :
    l <:+: l₁ ++ l₂ := by
  rcases h with ⟨s, t, hst⟩
  exact ⟨l₁ ++ s, t, by rw [← hst]; simp⟩

theorem isInfixAppendRight {α : Type} (l l₁ l₂ : List α) (h : l <:+: l₁) :
    l <:+: l₁ ++ l₂ := by
  rcases h with ⟨s, t, hst⟩
  exact ⟨s, t ++ l₂, by rw [← hst]; simp⟩

theorem strInfix_joinSep (x sep pre : String) (l : List String) (hx : x ∈ l) :
    (pre ++ x).data <:+: (joinSep sep (l.map (fun y => pre ++ y))).data := by
  induction l with
  | nil => simp at hx
  | cons y ys ih =>
    rcases List.mem_cons.mp hx with rfl | hx'
    · cases ys with
      | nil => exact List.infix_refl _
      | cons z zs =>
        have step : joinSep sep ((x :: z :: zs).map (fun w => pre ++ w))
            = (pre ++ x) ++ sep ++ joinSep sep ((z :: zs).map (fun w => pre ++ w)) := rfl
        refine ⟨[], sep.data ++ (joinSep sep ((z :: zs).map (fun w => pre ++ w))).data, ?_⟩
        rw [step]
        simp only [strData_append]
        simp [List.append_assoc]
    · cases ys with
      | nil => simp at hx'
      | cons z zs =>
        have step : joinSep sep ((y :: z :: zs).map (fun w => pre ++ w))
            = (pre ++ y) ++ sep ++ joinSep sep ((z :: zs).map (fun w => pre ++ w)) := rfl
        rcases ih hx' with ⟨s1, t1, hst⟩
        refine ⟨pre.data ++ y.data ++ sep.data ++ s1, t1, ?_⟩
        rw [step]
        simp only [strData_append]
        rw [← hst]
        simp [List.append_assoc]

theorem strInfix_invalidFilesComment (f : String) (l : List String) (hf : f ∈ l) :
    strInfix (" * - " ++ f) (invalidFilesComment l) := by
  have hne : l.isEmpty = false := by
    cases l with
    | nil => simp at hf
    | cons x xs => rfl
  unfold invalidFilesComment strInfix
  rw [hne]
  simp only [Bool.false_eq_true, if_false]
  rw [strData_append, strData_append]
  exact isInfixAppendRight _ _ _ (isInfixAppendLeft _ _ _ (strInfix_joinSep f "\n" " * - " l hf))

theorem dropWhile_head_false (p : Char → Bool) :
    ∀ (l : List Char) (x : Char) (xs : List Char), l.dropWhile p = x :: xs → p x = false := by
  intro l
  induction l with
  | nil => intro x xs h; cases h
  | cons y ys ih =>
    intro x xs h
    by_cases hy : p y
    · rw [List.dropWhile_cons_of_pos hy] at h
      exact ih x xs h
    · rw [List.dropWhile_cons_of_neg hy] at h
      cases h
      simpa using hy

theorem strTrim_data (s : String) :
    (strTrim s).data = List.rdropWhile isJsWhitespace (s.data.dropWhile isJsWhitespace) := rfl

theorem dropWhile_strTrim (s : String) :
    (strTrim s).data.dropWhile isJsWhitespace = (strTrim s).data := by
  rw [strTrim_data, List.dropWhile_eq_self_iff]
  rcases hpre : List.rdropWhile isJsWhitespace (s.data.dropWhile isJsWhitespace) with _ | ⟨d0, D⟩
  · intro hl; simp at hl
  · intro _
    rcases List.rdropWhile_prefix isJsWhitespace (s.data.dropWhile isJsWhitespace) with ⟨t, ht⟩
    rw [hpre] at ht
    have hA : s.data.dropWhile isJsWhitespace = d0 :: (D ++ t) := by
      rw [← ht]; simp
    have := dropWhile_head_false isJsWhitespace s.data d0 (D ++ t) hA
    simp [this]

theorem strTrim_idem (s : String) : strTrim (strTrim s) = strTrim s := by
  have h2 : (strTrim (strTrim s)).data = (strTrim s).data := by
    calc (strTrim (strTrim s)).data
        = List.rdropWhile isJsWhitespace ((strTrim s).data.dropWhile isJsWhitespace) :=
          strTrim_data (strTrim s)
      _ = List.rdropWhile isJsWhitespace (strTrim s).data := by rw [dropWhile_strTrim]
      _ = List.rdropWhile isJsWhitespace
            (List.rdropWhile isJsWhitespace (s.data.dropWhile isJsWhitespace)) := by
          rw [strTrim_data s]
      _ = List.rdropWhile isJsWhitespace (s.data.dropWhile isJsWhitespace) :=
          List.rdropWhile_idempotent _ _
      _ = (strTrim s).data := (strTrim_data s).symm
  cases hx : strTrim (strTrim s)
  cases hy : strTrim s
  rw [hx, hy] at h2
  simp only [] at h2
  rw [h2]

theorem applyLoadedLocale_cache (s : ControllerState) (l : String)
    (d : List (String × String)) : (applyLoadedLocale s l d).cache = s.cache := by
  unfold applyLoadedLocale
  by_cases hm : s.mounted <;> simp [hm]

theorem enqueueLoad_cache_preserved (loader : Loader) (s : ControllerState)
    (n : String) (ap : Bool) (k : String) (d : List (String × String))
    (hk : lookupA s.cache k = some d) :
    lookupA (enqueueLoad loader s n ap).1.cache k = some d := by
  simp only [enqueueLoad]
  by_cases hb : strTrim n = ""
  · simpa [hb] using hk
  · rw [if_neg hb]
    rcases hc : lookupA s.cache (strTrim n) with _ | cached
    · rcases hl : loader (strTrim n) with e | loaded
      · by_cases hap : ap && s.mounted <;> simpa [hc, hl, hap] using hk
      · have hne : strTrim n ≠ k := fun he => by rw [he, hk] at hc; cases hc
        have hstep : ∀ t : ControllerState, t.cache = (strTrim n, loaded) :: s.cache →
            lookupA t.cache k = some d := by
          intro t ht
          rw [ht]
          simpa [lookupA, List.find?, hne] using hk
        by_cases hap : ap <;> by_cases hm : s.mounted <;>
          simp only [hc, hl, hap, hm, Bool.and_self, Bool.and_false, Bool.and_true,
            if_true, if_false, Bool.true_and, Bool.false_and] <;>
          first
            | exact hstep _ (by simp [applyLoadedLocale, hm])
            | exact hstep _ rfl
    · have hcache : ∀ t : ControllerState, t.cache = s.cache → lookupA t.cache k = some d := by
        intro t ht; rw [ht]; exact hk
      by_cases hap : ap <;>
        simp only [hc, hap, if_true, if_false] <;>
        first
          | exact hcache _ (applyLoadedLocale_cache s (strTrim n) cached)
          | exact hcache _ rfl

theorem enqueueLoad_calls_cached (loader : Loader) (s : ControllerState)
    (n : String) (ap : Bool) (d : List (String × String))
    (hc : lookupA s.cache (strTrim n) = some d) :
    (enqueueLoad loader s n ap).2.2 = [] := by
  simp only [enqueueLoad]
  by_cases hb : strTrim n = "" <;> simp [hb, hc]

theorem enqueueLoad_calls_sub (loader : Loader) (s : ControllerState)
    (n : String) (ap : Bool) :
    (enqueueLoad loader s n ap).2.2 = [] ∨
      ((enqueueLoad loader s n ap).2.2 = [strTrim n] ∧
        lookupA s.cache (strTrim n) = none) := by
  simp only [enqueueLoad]
  by_cases hb : strTrim n = ""
  · left; simp [hb]
  · rcases hc : lookupA s.cache (strTrim n) with _ | cached
    · rcases hl : loader (strTrim n) with e | loaded
      · right; constructor
        · simp [hb, hl]
        · rfl
      · right; constructor
        · simp [hb, hl]
        · rfl
    · left; simp [hb, hc]

theorem setLocale_calls_cached (loader : Loader) (s : ControllerState)
    (l : String) (d : List (String × String))
    (hc : lookupA s.cache (strTrim l) = some d) :
    (setLocale loader s l).2.2 = [] := by
  simp only [setLocale]
  by_cases hb : strTrim l = ""
  · simp [hb]
  · rw [if_neg hb]
    by_cases hcur : strTrim l = s.locale
    · rw [if_pos hcur, hc]
    · rw [if_neg hcur]
      refine enqueueLoad_calls_cached loader s (strTrim l) true d ?_
      rw [strTrim_idem]
      exact hc

theorem setLocale_cache_preserved (loader : Loader) (s : ControllerState)
    (l : String) (k : String) (d : List (String × String))
    (hk : lookupA s.cache k = some d) :
    lookupA (setLocale loader s l).1.cache k = some d := by
  simp only [setLocale]
  by_cases hb : strTrim l = ""
  · simpa [hb] using hk
  · rw [if_neg hb]
    by_cases hcur : strTrim l = s.locale
    · rw [if_pos hcur]
      rcases hc : lookupA s.cache (strTrim l) with _ | cached
      · exact enqueueLoad_cache_preserved loader s (strTrim l) true k d hk
      · show lookupA (applyLoadedLocale s (strTrim l) cached).cache k = some d
        rw [applyLoadedLocale_cache]
        exact hk
    · rw [if_neg hcur]
      exact enqueueLoad_cache_preserved loader s (strTrim l) true k d hk

theorem preload_foldl_avoids (loader : Loader) (ns : List String)
    (s : ControllerState) (calls : List String) (lx : String)
    (d : List (String × String))
    (hcache : lookupA s.cache lx = some d) (hnot : lx ∉ calls) :
    lx ∉ (ns.foldl
        (fun acc n =>
          let r := enqueueLoad loader acc.1 n false
          (r.1, acc.2 ++ r.2.2))
        (s, calls)).2 ∧
      lookupA (ns.foldl
        (fun acc n =>
          let r := enqueueLoad loader acc.1 n false
          (r.1, acc.2 ++ r.2.2))
        (s, calls)).1.cache lx = some d := by
  induction ns generalizing s calls with
  | nil => exact ⟨hnot, hcache⟩
  | cons n ns ih =>
    simp only [List.foldl]
    apply ih
    · exact enqueueLoad_cache_preserved loader s n false lx d hcache
    · intro hmem
      rcases List.mem_append.mp hmem with h | h
      · exact hnot h
      · rcases enqueueLoad_calls_sub loader s n false with hz | ⟨hz, hzc⟩
        · rw [hz] at h; simp at h
        · rw [hz] at h
          have hlx : lx = strTrim n := by simpa using h
          rw [← hlx, hcache] at hzc
          cases hzc

theorem preload_avoids (loader : Loader) (s : ControllerState)
    (names : List String) (lx : String) (d : List (String × String))
    (hcache : lookupA s.cache lx = some d) :
    lx ∉ (preload loader s names).2 ∧
      lookupA (preload loader s names).1.cache lx = some d := by
  simp only [preload]
  exact preload_foldl_avoids loader _ s [] lx d hcache (by simp)

/-- C1 counterexample: in the worked example (`fallback.json` with
`A: "x"`, `en.json` with `A: "y"`, priority `['en', 'fallback']`) it is false
that the processing order places `fallback.json` before `en.json` with
`en.json`'s value `"y"` winning as the generated fallback for `A`: the order
is `[en.json, fallback.json]` and `"x"` wins. -/
theorem claim_C1_counterexample :
    ¬ (getLocaleFilesOrder ["fallback.json", "en.json"] ["en", "fallback"]
        = ["fallback.json", "en.json"] ∧
      (lookupA (checkPlaceholderTypeConsistency lastFileWinsExample).aggregatedMessages
          "A").map (fun m => m.fallback) = some "y") := by
  decide

/-- C1 (amended): with priority `['en', 'fallback']` the scanner's processing
order places `en.json` before `fallback.json`, so under the last-file-wins
rule the fallback generated for key `A` is `fallback.json`'s value `"x"`. -/
theorem claim_C1 :
    getLocaleFilesOrder ["fallback.json", "en.json"] ["en", "fallback"]
      = ["en.json", "fallback.json"] ∧
    (lookupA (checkPlaceholderTypeConsistency lastFileWinsExample).aggregatedMessages
        "A").map (fun m => m.fallback) = some "x" := by
  decide

/-- C2: with `fallback.json` holding `{userId}` (implicit string) and
`en.json` holding `{userId:number}`, the reconciler emits a type conflict for
`userId` listing each file's asserted type, and the resolved type for
`userId` in the aggregated message is `number`. -/
theorem claim_C2 :
    (checkPlaceholderTypeConsistency conflictExample).warnings
      = [⟨"K", [⟨"userId", [("en.json", "number"), ("fallback.json", "string")]⟩]⟩] ∧
    (lookupA (checkPlaceholderTypeConsistency conflictExample).aggregatedMessages "K").map
        (fun m => m.placeholders.map (fun p => (p.name, p.tyName)))
      = some [("userId", "number")] := by
  decide

/-- C3 counterexample: the unlisted file `b.json` is NOT placed before the
listed file `en.json`; the scanner orders listed files first. -/
theorem claim_C3_counterexample :
    getLocaleFilesOrder ["b.json", "en.json"] ["en"] = ["en.json", "b.json"] ∧
    (["en.json", "b.json"] : List String) ≠ ["b.json", "en.json"] := by
  decide

/-- C3 (amended): in the scanner's final ordering, files whose basename
appears in the priority list come first, ordered by their index in that list;
every file whose basename is absent from the priority list is placed after
them, those files ordered alphabetically by filename — so explicitly
configured locales are processed first and unlisted locales are processed
last (and, under last-file-wins, take precedence). -/
theorem claim_C3 (files prio : List String) :
    (getLocaleFilesOrder files prio).Perm files ∧
    (getLocaleFilesOrder files prio).Pairwise (fun a b =>
      (∀ i j, prioIndex prio a = some i → prioIndex prio b = some j → i ≤ j) ∧
      (prioIndex prio b ≠ none → prioIndex prio a ≠ none) ∧
      (prioIndex prio a = none → prioIndex prio b = none ∧ a ≤ b)) := by
  constructor
  · exact getLocaleFilesOrder_perm files prio
  · refine List.Pairwise.imp ?_ (getLocaleFilesOrder_sorted files prio)
    intro a b hab
    unfold localeLe localeCmp at hab
    rcases ha : prioIndex prio a with _ | i <;> rcases hb : prioIndex prio b with _ | j <;>
      rw [ha, hb] at hab
    · -- both unlisted
      change strCompare a b ≤ 0 at hab
      unfold strCompare at hab
      refine ⟨?_, ?_, ?_⟩
      · intro i j hi _; cases hi
      · intro hbn; exact absurd rfl hbn
      · intro _
        refine ⟨rfl, ?_⟩
        by_cases hlt : a < b
        · exact le_of_lt hlt
        · by_cases heq : a = b
          · exact le_of_eq heq
          · rw [if_neg hlt, if_neg heq] at hab
            omega
    · -- a unlisted, b listed: impossible in the sorted order
      change (1 : Int) ≤ 0 at hab
      exact absurd hab (by decide)
    · -- a listed, b unlisted
      refine ⟨?_, ?_, ?_⟩
      · intro i' j' _ hj; cases hj
      · intro hbn; exact absurd rfl hbn
      · intro han; cases han
    · -- both listed: ordered by priority-list index
      change (i : Int) - (j : Int) ≤ 0 at hab
      refine ⟨?_, ?_, ?_⟩
      · intro i' j' hi hj
        cases hi; cases hj
        omega
      · intro _; exact fun hcontra => by cases hcontra
      · intro han; cases han

/-- C6: the sanitizer is exactly the spec's four-step pipeline; the uniquifier
returns the first candidate `base`, `base_1`, `base_2`, … not in the used set
and registers it; a generation pass therefore assigns pairwise-distinct
identifiers, and on the spec's example the two keys sharing a base receive
distinct identifiers (the assignment is a pure function of the input
sequence, hence deterministic). -/
theorem claim_C6 :
    (∀ input, sanitizeIdentifier input = sanitizeSpec input) ∧
    (∀ base used, ∃ k,
      (ensureUniqueIdentifier base used).1 = candidateName base k ∧
      candidateName base k ∉ used ∧
      (∀ j, j < k → candidateName base j ∈ used) ∧
      (ensureUniqueIdentifier base used).2 = candidateName base k :: used) ∧
    (∀ keys used, (assignIdentifiers keys used).Nodup) ∧
    assignIdentifiers ["HELLO-WORLD", "HELLO_WORLD"] []
      = ["HELLO_WORLD", "HELLO_WORLD_1"] := by
  refine ⟨fun input => rfl, ?_, ?_, by decide⟩
  · intro base used
    rcases ensureUniqueAux_spec base used 0 used.length
        (by
          rcases exists_free_candidate base used 0 with ⟨k, hk, hfree⟩
          exact ⟨k, hk, hfree⟩) with ⟨k, hk, hfree, hall⟩
    rw [Nat.zero_add] at hk hfree
    refine ⟨k, hk, hfree, fun j hj => hall j (by omega) (by omega), ?_⟩
    show (ensureUniqueAux base used 0 used.length) :: used = candidateName base k :: used
    rw [hk]
  · intro keys used
    exact (assignIdentifiers_nodup keys used).1

theorem setLocale_eq_enqueue (loader : Loader) (s : ControllerState) (l : String)
    (hb : strTrim l ≠ "") (hmiss : lookupA s.cache (strTrim l) = none) :
    setLocale loader s l = enqueueLoad loader s (strTrim l) true := by
  simp only [setLocale]
  rw [if_neg hb]
  by_cases hcur : strTrim l = s.locale
  · rw [if_pos hcur, hmiss]
  · rw [if_neg hcur]

/-- C4: a `setLocale` call on a mounted controller whose load misses the
cache and whose loader rejects leaves `status = error` with the rejection
recorded in `error`, keeps the previously active locale and dictionary
untouched, and propagates the rejection to the caller. -/
theorem claim_C4 (loader : Loader) (s : ControllerState) (l e : String)
    (hm : s.mounted = true) (hb : strTrim l ≠ "")
    (hmiss : lookupA s.cache (strTrim l) = none)
    (herr : loader (strTrim l) = .error e) :
    (setLocale loader s l).1.status = .error ∧
    (setLocale loader s l).1.error = some e ∧
    (setLocale loader s l).1.locale = s.locale ∧
    (setLocale loader s l).1.dictionary = s.dictionary ∧
    (setLocale loader s l).2.1 = .error e := by
  rw [setLocale_eq_enqueue loader s l hb hmiss]
  simp only [enqueueLoad, strTrim_idem]
  rw [if_neg hb, hmiss, herr]
  simp [hm]

theorem claim_C4_witness :
    (setLocale c4Loader c4State "ja").1.status = .error ∧
    (setLocale c4Loader c4State "ja").1.error = some "boom" ∧
    (setLocale c4Loader c4State "ja").1.locale = c4State.locale ∧
    (setLocale c4Loader c4State "ja").1.dictionary = c4State.dictionary ∧
    (setLocale c4Loader c4State "ja").2.1 = .error "boom" :=
  claim_C4 c4Loader c4State "ja" "boom" rfl (by decide) (by decide) rfl

/-- C5: a first `setLocale` for an uncached locale invokes the loader exactly
once and caches the dictionary; the immediate second `setLocale` for the same
locale invokes it zero times; in general any `setLocale` or `preload`
touching a cached locale never invokes the loader for it, and existing cache
entries are never overwritten (write-once). -/
theorem claim_C5 (loader : Loader) (s : ControllerState) (l : String)
    (d : List (String × String))
    (hm : s.mounted = true) (hb : strTrim l ≠ "")
    (hmiss : lookupA s.cache (strTrim l) = none)
    (hok : loader (strTrim l) = .ok d) :
    (setLocale loader s l).2.2 = [strTrim l] ∧
    lookupA (setLocale loader s l).1.cache (strTrim l) = some d ∧
    (setLocale loader (setLocale loader s l).1 l).2.2 = [] ∧
    (∀ (t : ControllerState) (d2 : List (String × String)),
      lookupA t.cache (strTrim l) = some d2 →
        (setLocale loader t l).2.2 = [] ∧
        ∀ names, strTrim l ∉ (preload loader t names).2) ∧
    (∀ (t : ControllerState) (k : String) (d2 : List (String × String)),
      lookupA t.cache k = some d2 →
        lookupA (setLocale loader t l).1.cache k = some d2 ∧
        ∀ names, lookupA (preload loader t names).1.cache k = some d2) := by
  have h12 :
      (setLocale loader s l).2.2 = [strTrim l] ∧
      lookupA (setLocale loader s l).1.cache (strTrim l) = some d := by
    rw [setLocale_eq_enqueue loader s l hb hmiss]
    simp only [enqueueLoad, strTrim_idem]
    rw [if_neg hb, hmiss, hok]
    simp [hm, applyLoadedLocale, lookupA, List.find?]
  refine ⟨h12.1, h12.2, ?_, ?_, ?_⟩
  · exact setLocale_calls_cached loader (setLocale loader s l).1 l d h12.2
  · intro t d2 hc
    exact ⟨setLocale_calls_cached loader t l d2 hc,
      fun names => (preload_avoids loader t names (strTrim l) d2 hc).1⟩
  · intro t k d2 hk
    exact ⟨setLocale_cache_preserved loader t l k d2 hk,
      fun names => (preload_avoids loader t names k d2 hk).2⟩

theorem claim_C5_witness :
    (setLocale c5Loader c5State "ja").2.2 = [strTrim "ja"] ∧
    lookupA (setLocale c5Loader c5State "ja").1.cache (strTrim "ja")
      = some [("A", "konnichiwa")] ∧
    (setLocale c5Loader (setLocale c5Loader c5State "ja").1 "ja").2.2 = [] ∧
    (∀ (t : ControllerState) (d2 : List (String × String)),
      lookupA t.cache (strTrim "ja") = some d2 →
        (setLocale c5Loader t "ja").2.2 = [] ∧
        ∀ names, strTrim "ja" ∉ (preload c5Loader t names).2) ∧
    (∀ (t : ControllerState) (k : String) (d2 : List (String × String)),
      lookupA t.cache k = some d2 →
        lookupA (setLocale c5Loader t "ja").1.cache k = some d2 ∧
        ∀ names, lookupA (preload c5Loader t names).1.cache k = some d2) :=
  claim_C5 c5Loader c5State "ja" [("A", "konnichiwa")] rfl (by decide) (by decide) rfl

theorem mem_invalidFiles_of_none (files : List (String × Option (List (String × LValue))))
    (f : String) (hf : (f, none) ∈ files) : f ∈ invalidFilesFor files :=
  List.mem_filterMap.mpr ⟨(f, none), hf, rfl⟩

theorem not_mem_invalidFiles (files : List (String × Option (List (String × LValue))))
    (g : String) (hg : (g, none) ∉ files) : g ∉ invalidFilesFor files := by
  intro hmem
  rcases List.mem_filterMap.mp hmem with ⟨fp, hfp, hmatch⟩
  rcases fp with ⟨f2, p2⟩
  rcases p2 with _ | e2
  · simp only [Option.some.injEq] at hmatch
    subst hmatch
    exact hg hfp
  · simp at hmatch

theorem mem_fileMessages_keys (entries : List (String × LValue)) (k s : String)
    (hs : objGet entries k = some (.str s)) :
    k ∈ (fileMessages entries).map (fun p => p.1) := by
  have hkeys : k ∈ objKeys entries := by
    rw [objKeys, mem_dedupFirst]
    rcases Option.map_eq_some'.mp hs with ⟨p, hfind, _⟩
    have hmem := List.mem_of_find?_eq_some hfind
    have hkey := List.find?_some hfind
    exact List.mem_map.mpr ⟨p, List.mem_reverse.mp hmem, by simpa using hkey⟩
  apply List.mem_map.mpr
  refine ⟨(k, parseMessage k s s), ?_, rfl⟩
  apply List.mem_filterMap.mpr
  exact ⟨k, hkeys, by rw [hs]⟩

theorem mem_allKeys_of_strEntry (files : List (String × Option (List (String × LValue))))
    (g : String) (entries : List (String × LValue)) (k2 s : String)
    (hg : (g, some entries) ∈ files) (hs : objGet entries k2 = some (.str s)) :
    k2 ∈ allMessageKeys files := by
  rw [allMessageKeys, mem_dedupFirst]
  apply List.mem_flatMap.mpr
  exact ⟨(g, some entries), hg, mem_fileMessages_keys entries k2 s hs⟩

theorem mem_allKeys_of_lookup (files : List (String × Option (List (String × LValue))))
    (g : String) (entries : List (String × LValue)) (k : String) (m : ParsedMessage)
    (hg : (g, some entries) ∈ files) (hk : lookupA (fileMessages entries) k = some m) :
    k ∈ allMessageKeys files := by
  rw [allMessageKeys, mem_dedupFirst]
  apply List.mem_flatMap.mpr
  exact ⟨(g, some entries), hg, mem_keys_of_lookupA_eq_some _ _ _ hk⟩

theorem selected_isSome_of_lookup (files : List (String × Option (List (String × LValue))))
    (g : String) (entries : List (String × LValue)) (k : String) (m : ParsedMessage)
    (hg : (g, some entries) ∈ files) (hk : lookupA (fileMessages entries) k = some m) :
    ∃ m2, selectedMessageFor files k = some m2 := by
  rw [selectedMessageFor]
  exact findSome?_isSome_of_mem _ _ (g, some entries) (List.mem_reverse.mpr hg) m hk

theorem mem_aggregated_keys (files : List (String × Option (List (String × LValue))))
    (g : String) (entries : List (String × LValue)) (k : String) (m : ParsedMessage)
    (hg : (g, some entries) ∈ files) (hk : lookupA (fileMessages entries) k = some m) :
    k ∈ (aggregatedFor files).map (fun p => p.1) := by
  rcases selected_isSome_of_lookup files g entries k m hg hk with ⟨m2, hm2⟩
  apply List.mem_map.mpr
  refine ⟨(k, { m2 with placeholders := m2.placeholders.map (resolvePlaceholder files k) }),
    ?_, rfl⟩
  apply List.mem_filterMap.mpr
  refine ⟨k, mem_allKeys_of_lookup files g entries k m hg hk, ?_⟩
  rw [hm2]
  rfl

theorem fileMessages_lookup_none (entries : List (String × LValue)) (k : String)
    (hk : objGet entries k = some .nonStr) :
    lookupA (fileMessages entries) k = none := by
  cases hres : lookupA (fileMessages entries) k with
  | none => rfl
  | some m =>
    exfalso
    have hmem := lookupA_eq_some_mem _ _ _ hres
    rcases List.mem_filterMap.mp hmem with ⟨k2, _, hmatch⟩
    rcases hog : objGet entries k2 with _ | v
    · rw [hog] at hmatch; cases hmatch
    · rcases v with s | _
      · rw [hog] at hmatch
        simp only [Option.some.injEq, Prod.mk.injEq] at hmatch
        rcases hmatch with ⟨hkk, _⟩
        subst hkk
        rw [hog] at hk
        simp at hk
      · rw [hog] at hmatch; cases hmatch

theorem not_mem_allKeys (files : List (String × Option (List (String × LValue)))) (k : String)
    (hall : ∀ fp ∈ files, ∀ e2, fp.2 = some e2 → lookupA (fileMessages e2) k = none) :
    k ∉ allMessageKeys files := by
  intro hmem
  rw [allMessageKeys, mem_dedupFirst] at hmem
  rcases List.mem_flatMap.mp hmem with ⟨fp, hfp, hk⟩
  rcases fp with ⟨f2, p2⟩
  rcases p2 with _ | e2
  · simp at hk
  · rcases lookupA_isSome_of_mem_keys _ _ hk with ⟨v, hv⟩
    have := hall (f2, some e2) hfp e2 rfl
    rw [this] at hv
    cases hv

theorem aggregated_keys_sub (files : List (String × Option (List (String × LValue))))
    (k : String) (hk : k ∈ (aggregatedFor files).map (fun p => p.1)) :
    k ∈ allMessageKeys files := by
  rcases List.mem_map.mp hk with ⟨p, hp, hpk⟩
  rcases List.mem_filterMap.mp hp with ⟨k2, hk2, hmatch⟩
  rcases hsel : selectedMessageFor files k2 with _ | m
  · rw [hsel] at hmatch; cases hmatch
  · rw [hsel] at hmatch
    simp only [Option.map_some', Option.some.injEq] at hmatch
    rw [← hpk, ← hmatch]
    exact hk2

/-- C7: an unparsable file is recorded in `invalidFiles` and listed (as an
` * - file` line) in the generated diagnostic comment block, while every key
defined in any successfully parsed file still appears in the aggregated
output. -/
theorem claim_C7 (files : List (String × Option (List (String × LValue))))
    (f g k : String) (entries : List (String × LValue)) (m : ParsedMessage)
    (hf : (f, none) ∈ files)
    (hg : (g, some entries) ∈ files)
    (hk : lookupA (fileMessages entries) k = some m) :
    f ∈ (checkPlaceholderTypeConsistency files).invalidFiles ∧
    strInfix (" * - " ++ f)
      (invalidFilesComment (checkPlaceholderTypeConsistency files).invalidFiles) ∧
    k ∈ ((checkPlaceholderTypeConsistency files).aggregatedMessages).map (fun p => p.1) := by
  refine ⟨mem_invalidFiles_of_none files f hf, ?_, ?_⟩
  · exact strInfix_invalidFilesComment f _ (mem_invalidFiles_of_none files f hf)
  · exact mem_aggregated_keys files g entries k m hg hk

theorem claim_C7_witness :
    "bad.json" ∈ (checkPlaceholderTypeConsistency c7Files).invalidFiles ∧
    strInfix (" * - " ++ "bad.json")
      (invalidFilesComment (checkPlaceholderTypeConsistency c7Files).invalidFiles) ∧
    "K" ∈ ((checkPlaceholderTypeConsistency c7Files).aggregatedMessages).map (fun p => p.1) :=
  claim_C7 c7Files "bad.json" "en.json" "K" [("K", LValue.str "Hello")]
    (parseMessage "K" "Hello" "Hello") (by decide) (by decide) (by decide)

/-- C10: an entry whose value is not a string is silently skipped — the file
yields no parsed message for that key, the file is not recorded in
`invalidFiles`, its string-valued entries still contribute their keys, and a
key that is string-valued in no parsed file reaches neither the key set nor
the aggregated output. -/
theorem claim_C10 (files : List (String × Option (List (String × LValue))))
    (g k : String) (entries : List (String × LValue))
    (hg : (g, some entries) ∈ files)
    (hk : objGet entries k = some .nonStr)
    (hnone : (g, none) ∉ files) :
    lookupA (fileMessages entries) k = none ∧
    g ∉ (checkPlaceholderTypeConsistency files).invalidFiles ∧
    (∀ k2 s, objGet entries k2 = some (.str s) → k2 ∈ allMessageKeys files) ∧
    ((∀ fp ∈ files, ∀ e2, fp.2 = some e2 → lookupA (fileMessages e2) k = none) →
      k ∉ allMessageKeys files ∧
      k ∉ ((checkPlaceholderTypeConsistency files).aggregatedMessages).map (fun p => p.1)) := by
  refine ⟨fileMessages_lookup_none entries k hk, not_mem_invalidFiles files g hnone,
    ?_, ?_⟩
  · intro k2 s hs
    exact mem_allKeys_of_strEntry files g entries k2 s hg hs
  · intro hall
    refine ⟨not_mem_allKeys files k hall, ?_⟩
    intro hmem
    exact not_mem_allKeys files k hall (aggregated_keys_sub files k hmem)

theorem claim_C10_witness :
    lookupA (fileMessages [("N", LValue.nonStr), ("K", LValue.str "Hello")]) "N" = none ∧
    "en.json" ∉ (checkPlaceholderTypeConsistency c10Files).invalidFiles ∧
    (∀ k2 s, objGet [("N", LValue.nonStr), ("K", LValue.str "Hello")] k2 = some (.str s) →
      k2 ∈ allMessageKeys c10Files) ∧
    ((∀ fp ∈ c10Files, ∀ e2, fp.2 = some e2 → lookupA (fileMessages e2) "N" = none) →
      "N" ∉ allMessageKeys c10Files ∧
      "N" ∉ ((checkPlaceholderTypeConsistency c10Files).aggregatedMessages).map
        (fun p => p.1)) :=
  claim_C10 c10Files "en.json" "N" [("N", LValue.nonStr), ("K", LValue.str "Hello")]
    (by decide) (by decide) (by decide)

theorem lookupA_cons_ne {α : Type} (x : String × α) (l : List (String × α)) (k : String)
    (hx : x.1 ≠ k) : lookupA (x :: l) k = lookupA l k := by
  unfold lookupA
  rw [List.find?_cons_of_neg]
  simp [hx]

theorem lookupA_cons_eq {α : Type} (x : String × α) (l : List (String × α)) (k : String)
    (hx : x.1 = k) : lookupA (x :: l) k = some x.2 := by
  unfold lookupA
  rw [List.find?_cons_of_pos]
  · rfl
  · simp [hx]

theorem lookupA_perm {α : Type} (l1 l2 : List (String × α)) (h : l1.Perm l2)
    (hnd : (l1.map (fun p => p.1)).Nodup) (k : String) :
    lookupA l1 k = lookupA l2 k := by
  induction h with
  | nil => rfl
  | cons x h ih =>
    simp only [List.map_cons, List.nodup_cons] at hnd
    by_cases hx : x.1 = k
    · rw [lookupA_cons_eq x _ k hx, lookupA_cons_eq x _ k hx]
    · rw [lookupA_cons_ne x _ k hx, lookupA_cons_ne x _ k hx, ih hnd.2]
  | swap x y l =>
    simp only [List.map_cons, List.nodup_cons] at hnd
    have hxy : y.1 ≠ x.1 := by
      intro he
      exact hnd.1 (List.mem_cons.mpr (Or.inl he))
    by_cases hy : y.1 = k
    · have hx : x.1 ≠ k := fun he => hxy (hy.trans he.symm)
      rw [lookupA_cons_eq y _ k hy, lookupA_cons_ne x _ k hx, lookupA_cons_eq y _ k hy]
    · by_cases hx : x.1 = k
      · rw [lookupA_cons_ne y _ k hy, lookupA_cons_eq x _ k hx, lookupA_cons_eq x _ k hx]
      · rw [lookupA_cons_ne y _ k hy, lookupA_cons_ne x _ k hx,
          lookupA_cons_ne x _ k hx, lookupA_cons_ne y _ k hy]
  | trans h1 h2 ih1 ih2 =>
    rw [ih1 hnd, ih2 ((h1.map (fun p => p.1)).nodup_iff.mp hnd)]

theorem replacePlaceholders_perm (template : String)
    (params params2 : List (String × PValue)) (h : params.Perm params2)
    (hnd : (params.map (fun p => p.1)).Nodup) :
    replacePlaceholders template params = replacePlaceholders template params2 := by
  unfold replacePlaceholders
  congr 1
  congr 1
  apply List.map_congr_left
  intro t _
  cases t with
  | lit c => rfl
  | ph name tyOpt =>
    show (match lookupA params name with
          | some v => (pvToString v).data
          | none => phLiteral name tyOpt)
        = (match lookupA params2 name with
          | some v => (pvToString v).data
          | none => phLiteral name tyOpt)
    rw [lookupA_perm params params2 h hnd name]

/-- C8: placeholder substitution replaces each `{name}` / `{name:type}` token
whose name is a parameter property by the stringified value, independent of
the parameter object's property order, leaves tokens with absent names
literally in place, and renders the spec's worked example as
`"Hello Taro Tanaka, you are 25 years old"`. -/
theorem claim_C8 (template : String) (params params2 : List (String × PValue))
    (hperm : params.Perm params2)
    (hnd : (params.map (fun p => p.1)).Nodup) :
    replacePlaceholders template params = replacePlaceholders template params2 ∧
    replacePlaceholders "Hello {firstName} {lastName}, you are {age:number} years old"
        [("firstName", .vStr "Taro"), ("lastName", .vStr "Tanaka"), ("age", .vNum 25)]
      = "Hello Taro Tanaka, you are 25 years old" ∧
    replacePlaceholders "Hello {firstName} {lastName}, you are {age:number} years old"
        [("age", .vNum 25), ("lastName", .vStr "Tanaka"), ("firstName", .vStr "Taro")]
      = "Hello Taro Tanaka, you are 25 years old" ∧
    replacePlaceholders "Hello {firstName}, {missing:number} left"
        [("firstName", .vStr "Taro")]
      = "Hello Taro, {missing:number} left" :=
  ⟨replacePlaceholders_perm template params params2 hperm hnd,
    by decide, by decide, by decide⟩

theorem claim_C8_witness :
    replacePlaceholders "X {a} {b}" [("a", PValue.vStr "1"), ("b", PValue.vStr "2")]
      = replacePlaceholders "X {a} {b}" [("b", PValue.vStr "2"), ("a", PValue.vStr "1")] ∧
    replacePlaceholders "Hello {firstName} {lastName}, you are {age:number} years old"
        [("firstName", .vStr "Taro"), ("lastName", .vStr "Tanaka"), ("age", .vNum 25)]
      = "Hello Taro Tanaka, you are 25 years old" ∧
    replacePlaceholders "Hello {firstName} {lastName}, you are {age:number} years old"
        [("age", .vNum 25), ("lastName", .vStr "Tanaka"), ("firstName", .vStr "Taro")]
      = "Hello Taro Tanaka, you are 25 years old" ∧
    replacePlaceholders "Hello {firstName}, {missing:number} left"
        [("firstName", .vStr "Taro")]
      = "Hello Taro, {missing:number} left" :=
  claim_C8 "X {a} {b}" [("a", PValue.vStr "1"), ("b", PValue.vStr "2")]
    [("b", PValue.vStr "2"), ("a", PValue.vStr "1")] (by decide) (by decide)

/-- C9: a dictionary entry holding the empty string is treated as missing:
`getMessage` falls back to the item's fallback text, and
`tryGetMessageDynamic` takes its sanitized-key fallthrough, returning
`undefined` (`none`) when that also fails — never the empty translation. -/
theorem claim_C9 (dict : List (String × String)) (item : MessageItem)
    (key : String) (params : Option (List (String × PValue)))
    (hitem : lookupA dict item.key = some "")
    (hkey : lookupA dict key = some "") :
    getMessage dict item params =
      (match params with
       | some ps => replacePlaceholders item.fallback ps
       | none => item.fallback) ∧
    tryGetMessageDynamic dict key params =
      (dynamicFallthrough dict key).map (fun s =>
        match params with
        | some ps => replacePlaceholders s ps
        | none => s) ∧
    (dynamicFallthrough dict key = none → tryGetMessageDynamic dict key params = none) := by
  have h1 : truthyLookup dict item.key = none := by
    rw [truthyLookup, hitem]
    rfl
  have h2 : truthyLookup dict key = none := by
    rw [truthyLookup, hkey]
    rfl
  refine ⟨?_, ?_, ?_⟩
  · unfold getMessage
    rw [h1]
  · unfold tryGetMessageDynamic
    rw [h2]
    cases params with
    | none => rfl
    | some ps => rfl
  · intro hnone
    unfold tryGetMessageDynamic
    rw [h2]
    show (dynamicFallthrough dict key).map _ = none
    rw [hnone]
    rfl

theorem claim_C9_witness :
    getMessage [("K", "")] ⟨"K", "fallback text"⟩ none =
      (match (none : Option (List (String × PValue))) with
       | some ps => replacePlaceholders (MessageItem.mk "K" "fallback text").fallback ps
       | none => (MessageItem.mk "K" "fallback text").fallback) ∧
    tryGetMessageDynamic [("K", "")] "K" none =
      (dynamicFallthrough [("K", "")] "K").map (fun s =>
        match (none : Option (List (String × PValue))) with
        | some ps => replacePlaceholders s ps
        | none => s) ∧
    (dynamicFallthrough [("K", "")] "K" = none →
      tryGetMessageDynamic [("K", "")] "K" none = none) :=
  claim_C9 [("K", "")] ⟨"K", "fallback text"⟩ "K" none (by decide) (by decide)

end TypedMessage
